import Mathlib

/-!
Shallow embedding of `gcide2tab.py` and `merge_gcide_with_characters.py`:
the GCIDE XML → tab-delimited extractor and the base-lexicon/character-list
merger.  Strings are modelled as `List Char` (Python `str` is a sequence of
code points).  Python library primitives (`str.strip`, `str.find`,
`str.replace`, `str.splitlines`, `re` patterns fixed in the source,
`html.unescape`) are modelled by explicit executable functions below; each
model's doc comment states the exact Python behaviour it captures.
All recursions are structural (scanners that consume a variable number of
characters per step carry a fuel argument initialised to the list length,
which therefore never runs out), so every definition evaluates by kernel
reduction.
-/

namespace Gcide

/-- Model of Python's whitespace class: the characters matched by `\s` in a
`re` pattern over `str` and stripped by `str.strip()` (ASCII whitespace,
the C0 separators 1C–1F, NEL, NBSP and the Unicode space separators). -/
def pyIsSpace (c : Char) : Bool :=
  c == ' ' || c == '\t' || c == '\n' || c == '\r' ||
  c.toNat == 0xB || c.toNat == 0xC ||
  (0x1C ≤ c.toNat && c.toNat ≤ 0x1F) || c.toNat == 0x85 || c.toNat == 0xA0 ||
  c.toNat == 0x1680 || (0x2000 ≤ c.toNat && c.toNat ≤ 0x200A) ||
  c.toNat == 0x2028 || c.toNat == 0x2029 || c.toNat == 0x202F ||
  c.toNat == 0x205F || c.toNat == 0x3000

/-- Model of Python `str.strip()`: drop leading and trailing whitespace. -/
def pyStrip (l : List Char) : List Char :=
  ((l.dropWhile pyIsSpace).reverse.dropWhile pyIsSpace).reverse

/-- Scanner for `collapseWs`; the flag records whether the previous character
belonged to a whitespace run already replaced by a single space. -/
def cwGo : Bool → List Char → List Char
  | _, [] => []
  | inRun, c :: rest =>
    if pyIsSpace c then
      if inRun then cwGo true rest else ' ' :: cwGo true rest
    else c :: cwGo false rest

/-- Model of Python `re.sub(r'\s+', ' ', text)`: every maximal run of
whitespace becomes a single space. -/
def collapseWs (l : List Char) : List Char := cwGo false l

/-- Index of the first occurrence of `pat` as a contiguous sublist
(`none` if absent).  For nonempty `pat` this is Python `str.find`
(with `-1` rendered as `none`). -/
def findSub (pat : List Char) : List Char → Option Nat
  | [] => if pat.isPrefixOf ([] : List Char) then some 0 else none
  | c :: rest =>
    if pat.isPrefixOf (c :: rest) then some 0
    else (findSub pat rest).map (· + 1)

/-- Model of Python `str.find(pat, pos)` for nonempty `pat`. -/
def pyFind (s pat : List Char) (pos : Nat) : Option Nat :=
  (findSub pat (s.drop pos)).map (· + pos)

/-- Model of Python `pat in s` (substring containment) for nonempty `pat`. -/
def hasSub (s pat : List Char) : Bool := (findSub pat s).isSome

/-- Scanner for `listReplace`.  Fuel starts at the list length and decreases
by one per step while at least one character is consumed per step, so the
`0` case with a nonempty list is unreachable. -/
def lrGo (pat rep : List Char) : Nat → List Char → List Char
  | _, [] => []
  | 0, l => l
  | fuel + 1, c :: rest =>
    if pat ≠ [] ∧ pat.isPrefixOf (c :: rest) then
      rep ++ lrGo pat rep fuel ((c :: rest).drop pat.length)
    else c :: lrGo pat rep fuel rest

/-- Model of Python `str.replace(pat, rep)` for nonempty `pat`:
replace every non-overlapping occurrence, scanning left to right. -/
def listReplace (pat rep l : List Char) : List Char := lrGo pat rep l.length l

/-- Scanner for `strip_tags` (fuel as in `lrGo`).  On `'<'` it looks for the
next `'>'`: if at least one character lies strictly between them the whole
`<...>` span is dropped, otherwise (no `'>'` ahead, or the degenerate `<>`)
the `'<'` is kept and scanning resumes after it — exactly the matches of
`re.sub(r'<[^>]+>', '', text)`. -/
def stGo : Nat → List Char → List Char
  | _, [] => []
  | 0, l => l
  | fuel + 1, c :: rest =>
    if c = '<' then
      match rest.dropWhile (fun d => d != '>') with
      | [] => c :: stGo fuel rest
      | _ :: after =>
        if rest.takeWhile (fun d => d != '>') = [] then c :: stGo fuel rest
        else stGo fuel after
    else c :: stGo fuel rest

/-- Model of `strip_tags` from `gcide2tab.py`:
`re.sub(r'<[^>]+>', '', text)`. -/
def strip_tags (l : List Char) : List Char := stGo l.length l

/-- Numeric value of a list of decimal digits (most significant first). -/
def natOfDigits (ds : List Char) : Nat :=
  ds.foldl (fun n c => n * 10 + (c.toNat - 48)) 0

/-- Code point to character; invalid scalar values become U+FFFD, as Python
`html.unescape` renders out-of-range numeric references. -/
def charOfCodepoint (n : Nat) : Char :=
  if n < 0xD800 ∨ (0xE000 ≤ n ∧ n < 0x110000) then Char.ofNat n
  else Char.ofNat 0xFFFD

/-- The standard named character references recognised by the
`htmlUnescape` model. -/
def namedEntities : List (List Char × Char) :=
  [(("amp").data, '&'), (("lt").data, '<'), (("gt").data, '>'),
   (("quot").data, '"'), (("apos").data, '\x27'), (("nbsp").data, Char.ofNat 0xA0)]

/-- Attempt to read one character reference immediately after a `'&'`:
either `#` followed by decimal digits and `;`, or a name from
`namedEntities` followed by `;`.  Returns the decoded character and the
number of characters consumed after the `'&'`. -/
def parseEntity (rest : List Char) : Option (Char × Nat) :=
  match rest with
  | '#' :: tl =>
    let ds := tl.takeWhile (fun c => c.isDigit)
    if ds = [] then none
    else
      match tl.drop ds.length with
      | ';' :: _ => some (charOfCodepoint (natOfDigits ds), ds.length + 2)
      | _ => none
  | _ =>
    namedEntities.findSome? fun e =>
      if (e.1 ++ [';']).isPrefixOf rest then some (e.2, e.1.length + 1) else none

/-- Scanner for `htmlUnescape` (fuel as in `lrGo`). -/
def huGo : Nat → List Char → List Char
  | _, [] => []
  | 0, l => l
  | fuel + 1, c :: rest =>
    if c = '&' then
      match parseEntity rest with
      | some (ch, k) => ch :: huGo fuel (rest.drop k)
      | none => c :: huGo fuel rest
    else c :: huGo fuel rest

/-- Model of Python `html.unescape`, restricted to well-formed decimal
numeric references and the basic named references of `namedEntities`
(each with its terminating `;`).  Any other `&` is left untouched; in
particular the GCIDE-specific entities such as `&ebreve_;`, which the real
`html.unescape` also leaves untouched, pass through unchanged.  The model
agrees with the library on every string appearing in this development. -/
def htmlUnescape (l : List Char) : List Char := huGo l.length l

/-- The fixed GCIDE custom-entity replacement table of `decode_entities`,
in source order. -/
def gcideReplacements : List (List Char × List Char) :=
  [(("&ebreve_;").data, [Char.ofNat 0x115]),
   (("&emacr;").data, [Char.ofNat 0x113]),
   (("&ocirc;").data, [Char.ofNat 0xF4]),
   (("&eitalic_;").data, [Char.ofNat 0xE9]),
   (("&omacr;").data, [Char.ofNat 0x14D]),
   (("&ubreve_;").data, [Char.ofNat 0x16D]),
   (("&ibreve_;").data, [Char.ofNat 0x12D]),
   (("&abreve_;").data, [Char.ofNat 0x103])]

/-- Model of `decode_entities` from `gcide2tab.py`: `html.unescape`
followed by the fixed sequence of `str.replace` calls of
`gcideReplacements`. -/
def decode_entities (l : List Char) : List Char :=
  gcideReplacements.foldl (fun acc e => listReplace e.1 e.2 acc) (htmlUnescape l)

/-- Scanner for `extract_def_content`.  It walks the suffix of `s` starting
at index `i`, mirroring the `while i < len(entry_text)` loop: on `<def>`
depth increases (recording `begin` when depth was 0), on `</def>` depth
decreases and on reaching 0 the slice `s[begin:i]` together with `i + 6`
is returned, any other character advances by one.  Falling off the end
returns `(none, start)` exactly as the Python returns `(None, start)`. -/
def edcGo (s : List Char) (start : Nat) :
    List Char → Nat → Int → Option Nat → Option (List Char) × Nat
  | '<' :: 'd' :: 'e' :: 'f' :: '>' :: rest, i, depth, b =>
    edcGo s start rest (i + 5) (depth + 1) (if depth = 0 then some (i + 5) else b)
  | '<' :: '/' :: 'd' :: 'e' :: 'f' :: '>' :: rest, i, depth, b =>
    if depth - 1 = 0 then (some (((s.drop (b.getD 0)).take (i - b.getD 0))), i + 6)
    else edcGo s start rest (i + 6) (depth - 1) b
  | _ :: rest, i, depth, b => edcGo s start rest (i + 1) depth b
  | [], _, _, _ => (none, start)

/-- Model of `extract_def_content` from `gcide2tab.py`. -/
def extract_def_content (s : List Char) (start : Nat) : Option (List Char) × Nat :=
  edcGo s start (s.drop start) start 0 none

/-- Model of `re.search(r'<hw>([^<]*)</hw>', text)`: scan left to right for
a position starting with `<hw>` whose following run of non-`'<'` characters
is immediately followed by `</hw>`; return that run (the capture group). -/
def findHw : List Char → Option (List Char)
  | [] => none
  | c :: rest =>
    if (("<hw>").data).isPrefixOf (c :: rest) then
      let body := ((c :: rest).drop 4).takeWhile (fun d => d != '<')
      let rest2 := ((c :: rest).drop 4).dropWhile (fun d => d != '<')
      if (("</hw>").data).isPrefixOf rest2 then some body else findHw rest
    else findHw rest

/-- Final normalisation of a definition string in `extract_entry`
(source lines 98–99): replace tab, newline and carriage return by spaces,
then collapse whitespace runs and strip. -/
def cleanDef (l : List Char) : List Char :=
  pyStrip (collapseWs
    (listReplace ['\r'] [' '] (listReplace ['\n'] [' '] (listReplace ['\t'] [' '] l))))

/-- The `while True` loop of `extract_entry` collecting definition spans.
One unit of fuel is spent per iteration; `none` means the fuel ran out,
which models non-termination of the loop when every amount of fuel is
exhausted (the loop makes no progress when `extract_def_content` returns
`(None, idx)`, i.e. `pos` stays at `idx`). -/
def collectDefs (s : List Char) : Nat → Nat → Option (List (List Char))
  | 0, _ => none
  | fuel + 1, pos =>
    match pyFind s (("<def>").data) pos with
    | none => some []
    | some idx =>
      let r := extract_def_content s idx
      match collectDefs s fuel r.2 with
      | none => none
      | some tail =>
        match r.1 with
        | none => some tail
        | some content =>
          let plain := pyStrip (collapseWs (strip_tags content))
          if plain = [] then some tail else some (plain :: tail)

/-- Model of `extract_entry` from `gcide2tab.py`.  The outer `Option` is
the fuel of the definition-collecting loop (`none` = the loop did not
finish within `fuel` iterations); the inner `Option` is the function's own
`None`-for-no-entry result. -/
def extract_entry (fuel : Nat) (s : List Char) :
    Option (Option (List Char × List Char)) :=
  match findHw s with
  | none => some none
  | some raw =>
    let headword := pyStrip raw
    match collectDefs s fuel 0 with
    | none => none
    | some defs =>
      if defs = [] then some none
      else
        some (some (decode_entities headword,
          cleanDef (decode_entities (List.intercalate (("; ").data) defs))))

/-- Matcher for the block delimiter `re.split(r'<p>\s*<ent>', text)`:
at the current position, `<p>` followed by a maximal whitespace run
followed by `<ent>`; returns the total length of the match. -/
def matchEnt (l : List Char) : Option Nat :=
  if (("<p>").data).isPrefixOf l then
    let rest := l.drop 3
    let wsn := (rest.takeWhile pyIsSpace).length
    if (("<ent>").data).isPrefixOf (rest.drop wsn) then some (3 + wsn + 5) else none
  else none

/-- Scanner for `splitEnt` (fuel as in `lrGo`; every step consumes at least
one character, a delimiter match consumes at least eight). -/
def seGo : Nat → List Char → List Char → List (List Char)
  | _, [], acc => [acc.reverse]
  | 0, l, acc => [acc.reverse ++ l]
  | fuel + 1, c :: rest, acc =>
    match matchEnt (c :: rest) with
    | some k => acc.reverse :: seGo fuel ((c :: rest).drop k) []
    | none => seGo fuel rest (c :: acc)

/-- Model of `re.split(r'<p>\s*<ent>', text)`: the pieces of `text` between
non-overlapping, leftmost matches of the delimiter pattern. -/
def splitEnt (l : List Char) : List (List Char) := seGo l.length l []

/-- The entry-merge step of `process_file`: a Python dict in insertion
order, as an association list with unique keys.  A new headword is appended
at the end; an existing headword has `'; ' + definition` appended to its
value in place. -/
def addEntry : List (List Char × List Char) → List Char → List Char →
    List (List Char × List Char)
  | [], h, d => [(h, d)]
  | (k, v) :: rest, h, d =>
    if k = h then (k, v ++ ("; ").data ++ d) :: rest
    else (k, v) :: addEntry rest h d

/-- The per-block loop of `process_file`: skip a block unless it contains
both `<hw>` and `<def>`; otherwise prepend `<p><ent>` and run
`extract_entry`, folding the result into the entry list.  `none` propagates
fuel exhaustion (a diverging `extract_entry` call). -/
def procBlocks (fuel : Nat) : List (List Char) → List (List Char × List Char) →
    Option (List (List Char × List Char))
  | [], es => some es
  | b :: bs, es =>
    if hasSub b (("<hw>").data) && hasSub b (("<def>").data) then
      match extract_entry fuel ((("<p><ent>").data) ++ b) with
      | none => none
      | some none => procBlocks fuel bs es
      | some (some (h, d)) => procBlocks fuel bs (addEntry es h d)
    else procBlocks fuel bs es

/-- Model of `process_file` from `gcide2tab.py` on the decoded text of one
letter file. -/
def process_file (fuel : Nat) (text : List Char)
    (out_entries : List (List Char × List Char)) :
    Option (List (List Char × List Char)) :=
  procBlocks fuel (splitEnt text) out_entries

/-- The alphabet iterated by `main` when collecting letter files. -/
def letters : List Char := ("abcdefghijklmnopqrstuvwxyz").data

/-- The letter-file name `gcide_{c}.xml`. -/
def fileName (c : Char) : List Char :=
  (("gcide_").data) ++ [c] ++ ((".xml").data)

/-- A directory listing: file names paired with decoded contents, in
directory-iteration order.  Lookup by name (the only access the program
performs; it never iterates the listing). -/
def fsLookup (fs : List (List Char × List Char)) (name : List Char) :
    Option (List Char) :=
  (fs.find? (fun e => e.1 == name)).map Prod.snd

/-- The letters whose file `gcide_{c}.xml` exists, in `a`–`z` order.  This
is the order `main` processes files in: it builds `letter_files` by
iterating `'abcdefghijklmnopqrstuvwxyz'` and `sorted(letter_files)` is the
identity on such a list (the paths differ only in the letter). -/
def presentLetters (look : List Char → Option (List Char)) : List Char :=
  letters.filter (fun c => (look (fileName c)).isSome)

/-- The file-processing fold of `main`: process each present letter file
in order, threading the entry dictionary. -/
def procFiles (fuel : Nat) (look : List Char → Option (List Char)) :
    List Char → List (List Char × List Char) →
    Option (List (List Char × List Char))
  | [], es => some es
  | c :: cs, es =>
    match process_file fuel ((look (fileName c)).getD []) es with
    | none => none
    | some es2 => procFiles fuel look cs es2

/-- The entry dictionary built by a full run of the extractor over the
present letter files. -/
def entriesOfRun (fuel : Nat) (look : List Char → Option (List Char)) :
    Option (List (List Char × List Char)) :=
  procFiles fuel look (presentLetters look) []

/-- Lexicographic comparison of code-point sequences: exactly Python's
`<`/`>` on `str`, used by `sorted(entries.keys())`. -/
def lexCmp : List Char → List Char → Ordering
  | [], [] => Ordering.eq
  | [], _ :: _ => Ordering.lt
  | _ :: _, [] => Ordering.gt
  | a :: as, b :: bs =>
    if a.toNat < b.toNat then Ordering.lt
    else if b.toNat < a.toNat then Ordering.gt
    else lexCmp as bs

/-- The sort order of `sorted(entries.keys())`. -/
def lexLe (a b : List Char) : Prop := lexCmp a b ≠ Ordering.gt

instance : DecidableRel lexLe :=
  fun a b => inferInstanceAs (Decidable (lexCmp a b ≠ Ordering.gt))

/-- Write-time headword normalisation of `main` (source line 162):
`headword.replace('\t', ' ').replace('\n', ' ').strip()`. -/
def normHw (h : List Char) : List Char :=
  pyStrip (listReplace ['\n'] [' '] (listReplace ['\t'] [' '] h))

/-- Dictionary access `entries[headword]` (total here: only applied to keys
of the dictionary). -/
def dictGet (es : List (List Char × List Char)) (k : List Char) : List Char :=
  ((es.find? (fun e => e.1 == k)).map Prod.snd).getD []

/-- The serialisation loop of `main` (source lines 158–166): one line
`normHw headword ++ '\t' ++ definition ++ '\n'` per key, keys in sorted
order. -/
def render (es : List (List Char × List Char)) : List Char :=
  ((List.insertionSort lexLe (es.map Prod.fst)).map
    (fun k => normHw k ++ ['\t'] ++ dictGet es k ++ ['\n'])).flatten

/-- Observable effects of a run on the destination: creating the output
directory, writing the destination file (with its full contents), and
terminating with a nonzero exit status. -/
inductive Eff where
  | mkdirOut : Eff
  | writeOut : List Char → Eff
  | exitCode : Nat → Eff
deriving DecidableEq

/-- The effect trace of `main` of `gcide2tab.py`, over the lookup view of
the input directory.  Order follows the source: the input-directory check
(exit 1), then `output_path.parent.mkdir`, then the letter-file scan with
the zero-files check (exit 1), then processing, then the single write of
the fully built result.  `none` means the run diverges (fuel exhausted in
`extract_entry`). -/
def extractorTraceL (fuel : Nat) (dirExists : Bool)
    (look : List Char → Option (List Char)) : Option (List Eff) :=
  if dirExists = false then some [Eff.exitCode 1]
  else if presentLetters look = [] then some [Eff.mkdirOut, Eff.exitCode 1]
  else
    match entriesOfRun fuel look with
    | none => none
    | some es => some [Eff.mkdirOut, Eff.writeOut (render es)]

/-- The effect trace of `main` over a directory listing. -/
def extractorTrace (fuel : Nat) (dirExists : Bool)
    (fs : List (List Char × List Char)) : Option (List Eff) :=
  extractorTraceL fuel dirExists (fsLookup fs)

/-- Characters on which Python `str.splitlines` breaks (carriage return is
handled separately because of `\r\n`). -/
def isLineTerm (c : Char) : Bool :=
  c == '\n' || c.toNat == 0xB || c.toNat == 0xC ||
  c.toNat == 0x1C || c.toNat == 0x1D || c.toNat == 0x1E ||
  c.toNat == 0x85 || c.toNat == 0x2028 || c.toNat == 0x2029

/-- Scanner for `pySplitlines`: `acc` holds the current line reversed and
`afterCR` records that the previous character was a `'\r'` whose line has
already been emitted, so an immediately following `'\n'` is part of the
same `\r\n` break and is skipped. -/
def slGo : Bool → List Char → List Char → List (List Char)
  | _, [], acc => if acc = [] then [] else [acc.reverse]
  | afterCR, c :: rest, acc =>
    if afterCR && c == '\n' then slGo false rest acc
    else if c == '\r' then acc.reverse :: slGo true rest []
    else if isLineTerm c then acc.reverse :: slGo false rest []
    else slGo false rest (c :: acc)

/-- Model of Python `str.splitlines()`. -/
def pySplitlines (l : List Char) : List (List Char) := slGo false l []

/-- The provenance tag `CHAR_TAG` of `merge_gcide_with_characters.py`. -/
def CHAR_TAG : List Char := ("[Character] ").data

/-- The per-line treatment of a supplementary (character-list) line in the
merger's write loop: a line containing a tab is split at its first tab and
rewritten `headword ++ '\t' ++ CHAR_TAG ++ definition`; a line without a
tab is written unmodified. -/
def renderSupp (ln : List Char) : List Char :=
  if '\t' ∈ ln then
    (ln.takeWhile (fun c => c != '\t')) ++ ['\t'] ++ CHAR_TAG ++
      ((ln.dropWhile (fun c => c != '\t')).drop 1)
  else ln

/-- The base-lexicon lines: `gcide_path.read_text(...).strip().splitlines()`. -/
def baseLinesOf (baseText : List Char) : List (List Char) :=
  pySplitlines (pyStrip baseText)

/-- The supplementary lines after the blank-line filter:
`[ln for ln in char_lines if ln.strip()]`. -/
def suppFiltered (suppText : List Char) : List (List Char) :=
  (pySplitlines (pyStrip suppText)).filter (fun ln => !(pyStrip ln).isEmpty)

/-- The lines written by the merger, in order: every base line as-is, then
every filtered supplementary line through `renderSupp`. -/
def mergedLines (baseText suppText : List Char) : List (List Char) :=
  baseLinesOf baseText ++ (suppFiltered suppText).map renderSupp

/-- The bytes of the merger's combined output file: each line written
followed by `'\n'`. -/
def mergeOutput (baseText suppText : List Char) : List Char :=
  ((mergedLines baseText suppText).map (fun ln => ln ++ ['\n'])).flatten

/-- The `BOOK_CONFIG` registry: book folder → (character file name,
combined output basename). -/
def BOOK_CONFIG : List (List Char × (List Char × List Char)) :=
  [(("speaker-for-the-dead").data,
    ((("speaker-characters.txt").data), (("speaker-characters-and-gcide").data)))]

/-- Registry lookup `book_folder in BOOK_CONFIG`. -/
def lookupBook (book : List Char) : Option (List Char × List Char) :=
  (BOOK_CONFIG.find? (fun e => e.1 == book)).map Prod.snd

/-- The effect trace of `main` of `merge_gcide_with_characters.py` up to
the production of the combined output file (the downstream `tab2opf` and
`kindlegen` invocations are external).  Order follows the source: unknown
book folder (exit 1), then the base-lexicon and character-file existence
checks (exit 1 each), then `book_dir.mkdir`, then the single write of the
fully built union. -/
def mergerTrace (book : List Char) (gcideExists charExists : Bool)
    (baseText suppText : List Char) : List Eff :=
  match lookupBook book with
  | none => [Eff.exitCode 1]
  | some _ =>
    if gcideExists = false then [Eff.exitCode 1]
    else if charExists = false then [Eff.exitCode 1]
    else [Eff.mkdirOut, Eff.writeOut (mergeOutput baseText suppText)]

/-- Headwords as they appear on the lines of an output file: the text of
each line up to its first tab. -/
def headwordsOfOut (out : List Char) : List (List Char) :=
  (pySplitlines out).map (fun ln => ln.takeWhile (fun c => c != '\t'))

/-- The definition field of a tab-delimited line: everything after the
first tab. -/
def defFieldOf (ln : List Char) : List Char :=
  (ln.dropWhile (fun c => c != '\t')).drop 1

/-! ### Order properties of the key comparison -/

lemma lexCmp_swap : ∀ a b : List Char, lexCmp b a = (lexCmp a b).swap := by
  intro a
  induction a with
  | nil => intro b; cases b <;> rfl
  | cons x xs ih =>
    intro b
    cases b with
    | nil => rfl
    | cons y ys =>
      simp only [lexCmp]
      rcases Nat.lt_trichotomy x.toNat y.toNat with h | h | h
      · rw [if_neg (by omega), if_pos h, if_pos h]; rfl
      · rw [if_neg (by omega), if_neg (by omega), if_neg (by omega),
          if_neg (by omega)]
        exact ih ys
      · rw [if_pos h, if_neg (by omega), if_pos h]; rfl

lemma lexCmp_trans :
    ∀ a b c : List Char, lexCmp a b ≠ Ordering.gt → lexCmp b c ≠ Ordering.gt →
      lexCmp a c ≠ Ordering.gt := by
  intro a
  induction a with
  | nil =>
    intro b c _ _
    cases c <;> simp [lexCmp]
  | cons x xs ih =>
    intro b c h1 h2
    cases b with
    | nil => simp [lexCmp] at h1
    | cons y ys =>
      cases c with
      | nil => simp [lexCmp] at h2
      | cons z zs =>
        simp only [lexCmp] at h1 h2 ⊢
        split_ifs at h1 h2 ⊢ with hxy hyx hyz hzy hxz hzx <;>
          first
          | omega
          | exact fun he => Ordering.noConfusion he
          | (exact absurd rfl h1)
          | (exact absurd rfl h2)
          | (exact ih ys zs h1 h2)

instance : IsTotal (List Char) lexLe := by
  constructor
  intro a b
  by_cases h : lexCmp a b = Ordering.gt
  · right
    rw [lexLe, lexCmp_swap, h]
    exact fun he => Ordering.noConfusion he
  · left; exact h

instance : IsTrans (List Char) lexLe := ⟨lexCmp_trans⟩

/-! ### The running dictionary has pairwise-distinct keys -/

lemma mem_keys_addEntry :
    ∀ (es : List (List Char × List Char)) h d x,
      x ∈ (addEntry es h d).map Prod.fst → x ∈ es.map Prod.fst ∨ x = h := by
  intro es h d
  induction es with
  | nil =>
    intro x hx
    simp [addEntry] at hx
    exact Or.inr hx
  | cons e rest ih =>
    intro x hx
    obtain ⟨k, v⟩ := e
    by_cases hk : k = h
    · rw [addEntry, if_pos hk] at hx
      simp only [List.map_cons, List.mem_cons] at hx ⊢
      tauto
    · rw [addEntry, if_neg hk] at hx
      simp only [List.map_cons, List.mem_cons] at hx ⊢
      rcases hx with hx | hx
      · tauto
      · rcases ih x hx with h3 | h3 <;> tauto

lemma addEntry_keys_nodup :
    ∀ (es : List (List Char × List Char)) h d,
      (es.map Prod.fst).Nodup → ((addEntry es h d).map Prod.fst).Nodup := by
  intro es h d
  induction es with
  | nil => intro _; simp [addEntry]
  | cons e rest ih =>
    intro hn
    obtain ⟨k, v⟩ := e
    simp only [List.map_cons, List.nodup_cons] at hn
    by_cases hk : k = h
    · rw [addEntry, if_pos hk]
      simp only [List.map_cons, List.nodup_cons]
      exact hn
    · rw [addEntry, if_neg hk]
      simp only [List.map_cons, List.nodup_cons]
      refine ⟨fun hm => ?_, ih hn.2⟩
      rcases mem_keys_addEntry rest h d k hm with h3 | h3
      · exact hn.1 h3
      · exact hk h3

lemma procBlocks_nodup :
    ∀ fuel (bs : List (List Char)) es res,
      procBlocks fuel bs es = some res →
      (es.map Prod.fst).Nodup → (res.map Prod.fst).Nodup := by
  intro fuel bs
  induction bs with
  | nil =>
    intro es res hp hn
    rw [procBlocks] at hp
    cases hp
    exact hn
  | cons b bs ih =>
    intro es res hp hn
    rw [procBlocks] at hp
    split at hp
    · cases hx : extract_entry fuel ((("<p><ent>").data) ++ b) with
      | none => rw [hx] at hp; cases hp
      | some r =>
        cases r with
        | none => rw [hx] at hp; exact ih es res hp hn
        | some pr =>
          rw [hx] at hp
          exact ih _ res hp (addEntry_keys_nodup es pr.1 pr.2 hn)
    · exact ih es res hp hn

lemma procFiles_nodup :
    ∀ fuel look (cs : List Char) es res,
      procFiles fuel look cs es = some res →
      (es.map Prod.fst).Nodup → (res.map Prod.fst).Nodup := by
  intro fuel look cs
  induction cs with
  | nil =>
    intro es res hp hn
    rw [procFiles] at hp
    cases hp
    exact hn
  | cons c cs ih =>
    intro es res hp hn
    rw [procFiles] at hp
    cases hx : process_file fuel ((look (fileName c)).getD []) es with
    | none => rw [hx] at hp; cases hp
    | some es2 =>
      rw [hx] at hp
      exact ih es2 res hp (procBlocks_nodup fuel _ es es2 hx hn)

/-! ### Characters surviving the normalisation pipeline -/

lemma mem_lrGo (pat rep : List Char) :
    ∀ fuel l c, c ∈ lrGo pat rep fuel l → c ∈ rep ∨ c ∈ l := by
  intro fuel l
  induction fuel, l using lrGo.induct pat rep with
  | case1 fuel => intro c hc; rw [lrGo] at hc; cases hc
  | case2 l h =>
    intro c hc
    rcases l with _ | ⟨d, rest⟩
    · rw [lrGo] at hc; cases hc
    · rw [lrGo] at hc
      · exact Or.inr hc
      · simp
  | case3 fuel c rest hcond ih =>
    intro x hx
    rw [lrGo, if_pos hcond] at hx
    rcases List.mem_append.mp hx with hx | hx
    · exact Or.inl hx
    · rcases ih x hx with hx | hx
      · exact Or.inl hx
      · exact Or.inr (List.mem_of_mem_drop hx)
  | case4 fuel c rest hcond ih =>
    intro x hx
    rw [lrGo, if_neg hcond] at hx
    rcases List.mem_cons.mp hx with hx | hx
    · exact Or.inr (hx ▸ List.mem_cons_self c rest)
    · rcases ih x hx with hx | hx
      · exact Or.inl hx
      · exact Or.inr (List.mem_cons_of_mem c hx)

lemma mem_listReplace {pat rep l : List Char} {c : Char} :
    c ∈ listReplace pat rep l → c ∈ rep ∨ c ∈ l :=
  mem_lrGo pat rep l.length l c

lemma not_mem_lrGo_single (p r : Char) (hpr : p ≠ r) :
    ∀ fuel l, l.length ≤ fuel → p ∉ lrGo [p] [r] fuel l := by
  intro fuel
  induction fuel with
  | zero =>
    intro l hl
    have : l = [] := List.eq_nil_of_length_eq_zero (Nat.le_zero.mp hl)
    rw [this]
    intro hm; cases hm
  | succ fuel ih =>
    intro l hl
    cases l with
    | nil => intro hm; cases hm
    | cons c rest =>
      by_cases hcond : ([p] ≠ [] ∧ ([p]).isPrefixOf (c :: rest))
      · rw [lrGo, if_pos hcond]
        have hc : c = p := by
          have := hcond.2
          simp [List.isPrefixOf] at this
          exact this.symm
        intro hm
        rcases List.mem_append.mp hm with hm | hm
        · exact hpr (List.mem_singleton.mp hm)
        · have hlen : ((c :: rest).drop 1).length ≤ fuel := by
            simp at hl ⊢
            omega
          exact ih _ hlen hm
      · rw [lrGo, if_neg hcond]
        have hc : c ≠ p := by
          intro hcp
          exact hcond ⟨by simp, by simp [List.isPrefixOf, hcp]⟩
        intro hm
        rcases List.mem_cons.mp hm with hm | hm
        · exact hc hm.symm
        · exact ih rest (by simpa using Nat.le_of_succ_le_succ (by simpa using hl)) hm

lemma not_mem_listReplace_single {p r : Char} (hpr : p ≠ r) (l : List Char) :
    p ∉ listReplace [p] [r] l :=
  not_mem_lrGo_single p r hpr l.length l (Nat.le_refl _)

lemma mem_cwGo : ∀ b l c, c ∈ cwGo b l → c = ' ' ∨ c ∈ l := by
  intro b l
  induction b, l using cwGo.induct with
  | case1 b => intro c hc; cases hc
  | case2 c rest hsp ih =>
    intro x hx
    rw [cwGo, if_pos hsp] at hx
    rcases ih x hx with hx | hx
    · exact Or.inl hx
    · exact Or.inr (List.mem_cons_of_mem c hx)
  | case3 inRun c rest hsp hrun ih =>
    intro x hx
    have hb : inRun = false := by cases inRun <;> simp_all
    rw [cwGo, if_pos hsp, hb] at hx
    simp only [Bool.false_eq_true, if_false] at hx
    rcases List.mem_cons.mp hx with hx | hx
    · exact Or.inl hx
    · rcases ih x hx with hx | hx
      · exact Or.inl hx
      · exact Or.inr (List.mem_cons_of_mem c hx)
  | case4 inRun c rest hsp ih =>
    intro x hx
    rw [cwGo, if_neg hsp] at hx
    rcases List.mem_cons.mp hx with hx | hx
    · exact Or.inr (hx ▸ List.mem_cons_self c rest)
    · rcases ih x hx with hx | hx
      · exact Or.inl hx
      · exact Or.inr (List.mem_cons_of_mem c hx)

lemma mem_collapseWs {l : List Char} {c : Char} :
    c ∈ collapseWs l → c = ' ' ∨ c ∈ l :=
  mem_cwGo false l c

lemma mem_pyStrip {l : List Char} {c : Char} : c ∈ pyStrip l → c ∈ l := by
  intro hc
  rw [pyStrip] at hc
  rw [List.mem_reverse] at hc
  have hc := List.dropWhile_subset _ hc
  rw [List.mem_reverse] at hc
  exact List.dropWhile_subset _ hc

/-- The final definition normalisation of `extract_entry` removes every
raw tab and newline. -/
lemma cleanDef_no_tab_nl (x : List Char) :
    '\t' ∉ cleanDef x ∧ '\n' ∉ cleanDef x := by
  have h1 : '\t' ∉ listReplace ['\t'] [' '] x :=
    not_mem_listReplace_single (by decide) x
  have h2t : '\t' ∉ listReplace ['\n'] [' '] (listReplace ['\t'] [' '] x) := by
    intro hm
    rcases mem_listReplace hm with hm | hm
    · exact absurd (List.mem_singleton.mp hm) (by decide)
    · exact h1 hm
  have h2n : '\n' ∉ listReplace ['\n'] [' '] (listReplace ['\t'] [' '] x) :=
    not_mem_listReplace_single (by decide) _
  have h3t : '\t' ∉ listReplace ['\r'] [' ']
      (listReplace ['\n'] [' '] (listReplace ['\t'] [' '] x)) := by
    intro hm
    rcases mem_listReplace hm with hm | hm
    · exact absurd (List.mem_singleton.mp hm) (by decide)
    · exact h2t hm
  have h3n : '\n' ∉ listReplace ['\r'] [' ']
      (listReplace ['\n'] [' '] (listReplace ['\t'] [' '] x)) := by
    intro hm
    rcases mem_listReplace hm with hm | hm
    · exact absurd (List.mem_singleton.mp hm) (by decide)
    · exact h2n hm
  constructor
  · intro hm
    rcases mem_collapseWs (mem_pyStrip hm) with hm | hm
    · exact absurd hm (by decide)
    · exact h3t hm
  · intro hm
    rcases mem_collapseWs (mem_pyStrip hm) with hm | hm
    · exact absurd hm (by decide)
    · exact h3n hm

/-- Lines produced by `str.splitlines` contain no newline character. -/
lemma slGo_no_nl :
    ∀ (l : List Char) (b : Bool) (acc : List Char), '\n' ∉ acc →
      ∀ ln ∈ slGo b l acc, '\n' ∉ ln := by
  intro l
  induction l with
  | nil =>
    intro b acc ha ln hln
    rw [slGo] at hln
    by_cases hacc : acc = []
    · rw [if_pos hacc] at hln; cases hln
    · rw [if_neg hacc] at hln
      have : ln = acc.reverse := List.mem_singleton.mp hln
      rw [this]
      intro hm
      exact ha (List.mem_reverse.mp hm)
  | cons c rest ih =>
    intro b acc ha ln hln
    rw [slGo] at hln
    by_cases h1 : (b && c == '\n') = true
    · rw [if_pos h1] at hln
      exact ih false acc ha ln hln
    · rw [if_neg h1] at hln
      by_cases h2 : (c == '\r') = true
      · rw [if_pos h2] at hln
        rcases List.mem_cons.mp hln with rfl | hln
        · intro hm; exact ha (List.mem_reverse.mp hm)
        · exact ih true [] (by simp) ln hln
      · rw [if_neg h2] at hln
        by_cases h3 : isLineTerm c = true
        · rw [if_pos h3] at hln
          rcases List.mem_cons.mp hln with rfl | hln
          · intro hm; exact ha (List.mem_reverse.mp hm)
          · exact ih false [] (by simp) ln hln
        · rw [if_neg h3] at hln
          refine ih false (c :: acc) ?_ ln hln
          intro hm
          rcases List.mem_cons.mp hm with hm | hm
          · rw [← hm] at h3
            exact h3 (by decide)
          · exact ha hm

/-- Every line of `pySplitlines` is free of raw newlines. -/
lemma pySplitlines_no_nl {t ln : List Char} (h : ln ∈ pySplitlines t) :
    '\n' ∉ ln :=
  slGo_no_nl t false [] (by simp) ln h

/-! ### Lookup in a directory listing is order-independent -/

lemma key_unique :
    ∀ (l : List (List Char × List Char)) a b,
      (l.map Prod.fst).Nodup → a ∈ l → b ∈ l → a.1 = b.1 → a = b := by
  intro l
  induction l with
  | nil => intro a b _ ha; cases ha
  | cons e rest ih =>
    intro a b hn ha hb hk
    simp only [List.map_cons, List.nodup_cons] at hn
    rcases List.mem_cons.mp ha with ha | ha <;>
      rcases List.mem_cons.mp hb with hb | hb
    · rw [ha, hb]
    · exfalso
      apply hn.1
      have hm : b.1 ∈ List.map Prod.fst rest := List.mem_map_of_mem Prod.fst hb
      rw [← ha, hk]
      exact hm
    · exfalso
      apply hn.1
      have hm : a.1 ∈ List.map Prod.fst rest := List.mem_map_of_mem Prod.fst ha
      rw [← hb, ← hk]
      exact hm
    · exact ih a b hn.2 ha hb hk

lemma fsLookup_perm :
    ∀ (fs1 fs2 : List (List Char × List Char)), fs1.Perm fs2 →
      (fs1.map Prod.fst).Nodup →
      ∀ name, fsLookup fs1 name = fsLookup fs2 name := by
  intro fs1 fs2 hp hn name
  rw [fsLookup, fsLookup]
  cases h1 : fs1.find? (fun e => e.1 == name) with
  | none =>
    have h2 : fs2.find? (fun e => e.1 == name) = none := by
      rw [List.find?_eq_none]
      intro x hx
      exact List.find?_eq_none.mp h1 x (hp.mem_iff.mpr hx)
    rw [h2]
  | some e =>
    have he1 : e ∈ fs1 := List.mem_of_find?_eq_some h1
    have hpe : (e.1 == name) = true := by simpa using List.find?_some h1
    have hs : (fs2.find? (fun x => x.1 == name)).isSome :=
      List.find?_isSome.mpr ⟨e, hp.mem_iff.mp he1, hpe⟩
    obtain ⟨e2, h2⟩ := Option.isSome_iff_exists.mp hs
    have he2 : e2 ∈ fs1 := hp.mem_iff.mpr (List.mem_of_find?_eq_some h2)
    have hpe2 : (e2.1 == name) = true := by simpa using List.find?_some h2
    have : e = e2 :=
      key_unique fs1 e e2 hn he1 he2
        ((beq_iff_eq.mp hpe).trans (beq_iff_eq.mp hpe2).symm)
    rw [h2, this]

/-! ### Concrete inputs used by individual claims -/

/-- Entry block with nested `<def>` markup (claim C2). -/
def c2Block : List Char :=
  ("<p><ent>W</ent><hw>w</hw> <def>outer <def>inner</def> text</def></p>").data

/-- Two-letter-file corpus with a duplicate headword `apple` (claim C3). -/
def c3Fs : List (List Char × List Char) :=
  [(fileName 'a', ("<p><ent>Apple</ent><hw>apple</hw><def>a fruit</def></p>").data),
   (fileName 'b', ("<p><ent>Apple</ent><hw>apple</hw><def>to polish</def></p>").data)]

/-- Corpus whose two distinct raw headwords (`a<TAB>b` and `a b`) collide
after write-time normalisation (claim C4). -/
def c4Fs : List (List Char × List Char) :=
  [(fileName 'a',
    ("<p><ent>x</ent><hw>a\tb</hw><def>d1</def></p><p><ent>y</ent><hw>a b</hw><def>d2</def></p>").data)]

/-- The output the extractor writes for `c4Fs`. -/
def c4Out : List Char := ("a b\td1\na b\td2\n").data

/-- Entry block with an unmatched `<def>` open tag (claim C1): the
headword matches, but the sole `<def>` at index 25 has no closing
`</def>`. -/
def c1Entry : List Char := ("<p><ent>x</ent><hw>w</hw><def>oops").data

/-- One-file corpus containing only `c1Entry` (claim C1). -/
def c1Fs : List (List Char × List Char) := [(fileName 'a', c1Entry)]

/-- On `c1Entry`, `extract_def_content` returns `(None, 25)` for the
`<def>` at index 25, so the collection loop re-finds the same `<def>`
without advancing: no amount of fuel finishes it. -/
lemma c1_collect_stuck : ∀ n, collectDefs c1Entry n 25 = none := by
  intro n
  induction n with
  | zero => rfl
  | succ n ih =>
    have e1 : pyFind c1Entry (("<def>").data) 25 = some 25 := by decide
    have e2 : extract_def_content c1Entry 25 = (none, 25) := by decide
    simp [collectDefs, e1, e2, ih]

/-- The collection loop started at position 0 on `c1Entry` also never
finishes: the first `<def>` found is the stuck one at index 25. -/
lemma c1_collect_from_zero : ∀ n, collectDefs c1Entry n 0 = none := by
  intro n
  cases n with
  | zero => rfl
  | succ n =>
    have e1 : pyFind c1Entry (("<def>").data) 0 = some 25 := by decide
    have e2 : extract_def_content c1Entry 25 = (none, 25) := by decide
    simp [collectDefs, e1, e2, c1_collect_stuck n]

/-- `extract_entry` diverges on `c1Entry` (fuel exhausted at every fuel). -/
lemma c1_entry_diverges : ∀ fuel, extract_entry fuel c1Entry = none := by
  intro fuel
  have e1 : findHw c1Entry = some (("w").data) := by decide
  simp [extract_entry, e1, c1_collect_from_zero fuel]

/-- A full extractor run over `c1Fs` never finishes building its entry
dictionary. -/
lemma c1_run_diverges : ∀ fuel, entriesOfRun fuel (fsLookup c1Fs) = none := by
  intro fuel
  have hE : extract_entry fuel
      ((("<p><ent>").data) ++ ("x</ent><hw>w</hw><def>oops").data) = none :=
    c1_entry_diverges fuel
  have ep : presentLetters (fsLookup c1Fs) = ['a'] := by decide
  rw [entriesOfRun, ep]
  show (match process_file fuel ((fsLookup c1Fs (fileName 'a')).getD []) [] with
        | none => none
        | some es2 => procFiles fuel (fsLookup c1Fs) [] es2) = none
  have el : (fsLookup c1Fs (fileName 'a')).getD [] = c1Entry := by decide
  rw [el]
  have hp : process_file fuel c1Entry [] = none := by
    rw [process_file]
    have es : splitEnt c1Entry = [[], ("x</ent><hw>w</hw><def>oops").data] := by decide
    rw [es, procBlocks]
    have e0 : (hasSub ([] : List Char) (("<hw>").data) &&
        hasSub ([] : List Char) (("<def>").data)) = false := by decide
    rw [e0]
    simp only [Bool.false_eq_true, if_false]
    rw [procBlocks]
    have ec : (hasSub (("x</ent><hw>w</hw><def>oops").data) (("<hw>").data) &&
        hasSub (("x</ent><hw>w</hw><def>oops").data) (("<def>").data)) = true := by decide
    rw [ec]
    simp only [if_true]
    rw [hE]
  rw [hp]

/-! ### Claim theorems -/

/-- C1: for a block with a headword and an unmatched `<def>` open tag,
the extractor does not skip the block and terminate — `extract_entry`
fails to complete within any number of loop iterations, and a run over a
corpus containing such a block never reaches the end.  This refutes the
claim that unmatched tags are non-fatal; the loop sets
`pos = end_pos = idx` and re-finds the same `<def>` forever. -/
theorem c1_unmatched_def_diverges :
    ∀ fuel, extract_entry fuel c1Entry = none ∧
      extractorTrace fuel true c1Fs = none := by
  intro fuel
  refine ⟨c1_entry_diverges fuel, ?_⟩
  have ep : presentLetters (fsLookup c1Fs) ≠ [] := by decide
  rw [extractorTrace, extractorTraceL]
  simp only [Bool.true_eq_false, if_false, ep, c1_run_diverges fuel]

/-- C2: on the block `<def>outer <def>inner</def> text</def>` the extractor
collects exactly one definition span, whose stripped and normalised text is
`outer inner text` — the scan matches the nesting-balanced close tag, not
the first `</def>`. -/
theorem c2_nested_def_single_span :
    collectDefs c2Block 9 0 = some [("outer inner text").data] ∧
    extract_entry 9 c2Block = some (some (("w").data, ("outer inner text").data)) := by
  decide

/-- C3: on a corpus with a letter-`a` file defining `apple` as `a fruit`
and a letter-`b` file defining `apple` as `to polish`, the extractor run
writes exactly the single line `apple<TAB>a fruit; to polish<NEWLINE>`:
duplicate headwords are consolidated with `"; "` in alphabetical file
order. -/
theorem c3_end_to_end_apple :
    extractorTrace 10 true c3Fs =
      some [Eff.mkdirOut, Eff.writeOut (("apple\ta fruit; to polish\n").data)] := by
  decide

/-- C4 counterexample: on `c4Fs` the run terminates normally and writes
`c4Out`, whose two lines carry the same headword `a b` — after the
write-time normalisation of headwords, a headword can appear on more than
one line, contradicting the claim. -/
theorem c4_normalized_headword_duplicate :
    extractorTrace 10 true c4Fs = some [Eff.mkdirOut, Eff.writeOut c4Out] ∧
    headwordsOfOut c4Out = [("a b").data, ("a b").data] ∧
    ¬ (headwordsOfOut c4Out).Nodup := by
  decide

/-- C5 (amended): every definition produced by `extract_entry` is free of
raw tabs and raw newlines, and no line written by the merger contains a
raw newline; the merger, however, copies supplementary definitions
verbatim, so a raw tab inside a supplementary definition survives into
the written definition field (the original claim is refuted by
`c5_merger_tab_in_definition`). -/
theorem c5_fields_free_of_ctl :
    (∀ fuel s h d, extract_entry fuel s = some (some (h, d)) →
      '\t' ∉ d ∧ '\n' ∉ d) ∧
    (∀ b s ln, ln ∈ mergedLines b s → '\n' ∉ ln) := by
  constructor
  · intro fuel s h d he
    cases hf : findHw s with
    | none => simp [extract_entry, hf] at he
    | some raw =>
      simp only [extract_entry, hf] at he
      cases hc : collectDefs s fuel 0 with
      | none => simp only [hc] at he; exact Option.noConfusion he
      | some defs =>
        simp only [hc] at he
        by_cases hd : defs = []
        · simp [if_pos hd] at he
        · simp only [if_neg hd, Option.some.injEq, Prod.mk.injEq] at he
          rw [← he.2]
          exact cleanDef_no_tab_nl _
  · intro b s ln hln
    rw [mergedLines] at hln
    rcases List.mem_append.mp hln with hln | hln
    · rw [baseLinesOf] at hln
      exact pySplitlines_no_nl hln
    · obtain ⟨l0, hl0, rfl⟩ := List.mem_map.mp hln
      rw [suppFiltered] at hl0
      have h0 : '\n' ∉ l0 := pySplitlines_no_nl (List.mem_of_mem_filter hl0)
      rw [renderSupp]
      by_cases ht : '\t' ∈ l0
      · rw [if_pos ht]
        intro hm
        simp only [List.mem_append] at hm
        rcases hm with ((hm | hm) | hm) | hm
        · exact h0 (List.takeWhile_subset _ hm)
        · exact absurd (List.mem_singleton.mp hm) (by decide)
        · exact absurd hm (by decide)
        · exact h0 (List.dropWhile_subset _ (List.mem_of_mem_drop hm))
      · rw [if_neg ht]
        exact h0

/-- Witness for `c5_fields_free_of_ctl`: a concrete extracted entry and a
concrete merged supplementary line. -/
theorem c5_fields_free_of_ctl_witness :
    (extract_entry 3 (("<p><ent>x</ent><hw>w</hw><def>a b</def></p>").data) =
      some (some (("w").data, ("a b").data)) ∧
      '\t' ∉ (("a b").data) ∧ '\n' ∉ (("a b").data)) ∧
    ((("dog\t[Character] loyal companion of the hero").data ∈
        mergedLines (("dog\ta canine").data)
          (("dog\tloyal companion of the hero").data)) ∧
      '\n' ∉ (("dog\t[Character] loyal companion of the hero").data)) :=
  ⟨⟨by decide,
    c5_fields_free_of_ctl.1 3
      (("<p><ent>x</ent><hw>w</hw><def>a b</def></p>").data)
      (("w").data) (("a b").data) (by decide)⟩,
   ⟨by decide,
    c5_fields_free_of_ctl.2 (("dog\ta canine").data)
      (("dog\tloyal companion of the hero").data)
      (("dog\t[Character] loyal companion of the hero").data) (by decide)⟩⟩

/-- C4 (amended): whenever an extractor run finishes building its entry
dictionary, the dictionary's raw headword keys are pairwise distinct, the
serialisation order (`sorted(entries.keys())`) is lexicographically sorted
over those raw keys — still pairwise distinct after sorting — and the
output is exactly one line `normHw key ++ TAB ++ definition ++ NEWLINE`
per key in that order.  (The original claim's strengthening to headwords
*after* write-time normalisation is refuted by
`c4_normalized_headword_duplicate`.) -/
theorem c4_unique_sorted_raw_keys :
    ∀ fuel look es, entriesOfRun fuel look = some es →
      (es.map Prod.fst).Nodup ∧
      (List.insertionSort lexLe (es.map Prod.fst)).Nodup ∧
      List.Sorted lexLe (List.insertionSort lexLe (es.map Prod.fst)) ∧
      render es = ((List.insertionSort lexLe (es.map Prod.fst)).map
        (fun k => normHw k ++ ['\t'] ++ dictGet es k ++ ['\n'])).flatten := by
  intro fuel look es h
  have hn : (es.map Prod.fst).Nodup :=
    procFiles_nodup fuel look (presentLetters look) [] es h List.nodup_nil
  exact ⟨hn, ((List.perm_insertionSort lexLe _).nodup_iff).mpr hn,
    List.sorted_insertionSort lexLe _, rfl⟩

/-- Witness for `c4_unique_sorted_raw_keys` at the concrete corpus
`c4Fs`. -/
theorem c4_unique_sorted_raw_keys_witness :
    entriesOfRun 10 (fsLookup c4Fs) =
      some [(("a\tb").data, ("d1").data), (("a b").data, ("d2").data)] ∧
    (([(("a\tb").data, ("d1").data), (("a b").data, ("d2").data)].map
        (Prod.fst (α := List Char) (β := List Char))).Nodup ∧
      (List.insertionSort lexLe
        ([(("a\tb").data, ("d1").data),
          (("a b").data, ("d2").data)].map Prod.fst)).Nodup ∧
      List.Sorted lexLe (List.insertionSort lexLe
        ([(("a\tb").data, ("d1").data),
          (("a b").data, ("d2").data)].map Prod.fst)) ∧
      render [(("a\tb").data, ("d1").data), (("a b").data, ("d2").data)] =
        ((List.insertionSort lexLe
          ([(("a\tb").data, ("d1").data),
            (("a b").data, ("d2").data)].map Prod.fst)).map
          (fun k => normHw k ++ ['\t'] ++
            dictGet [(("a\tb").data, ("d1").data),
              (("a b").data, ("d2").data)] k ++ ['\n'])).flatten) :=
  ⟨by decide, c4_unique_sorted_raw_keys 10 (fsLookup c4Fs) _ (by decide)⟩

/-- C5 counterexample: a supplementary line containing two tabs is passed
through the merger with only the provenance tag inserted, so the written
definition field still contains a raw tab. -/
theorem c5_merger_tab_in_definition :
    mergedLines [] (("dog\tx\ty").data) = [("dog\t[Character] x\ty").data] ∧
    '\t' ∈ defFieldOf (("dog\t[Character] x\ty").data) := by
  decide

/-- Splitting a line `h ++ '\t' :: d` at its first tab recovers `h` when
`h` itself is tab-free. -/
lemma takeWhile_no_tab (h d : List Char) (hh : '\t' ∉ h) :
    (h ++ '\t' :: d).takeWhile (fun c => c != '\t') = h := by
  induction h with
  | nil => simp
  | cons a as ih =>
    have ha : a ≠ '\t' := fun he => hh (he ▸ List.mem_cons_self a as)
    rw [List.cons_append, List.takeWhile_cons, if_pos (by simp [ha])]
    rw [ih (fun hm => hh (List.mem_cons_of_mem a hm))]

/-- Companion to `takeWhile_no_tab` for the remainder after the first
tab. -/
lemma dropWhile_no_tab (h d : List Char) (hh : '\t' ∉ h) :
    (h ++ '\t' :: d).dropWhile (fun c => c != '\t') = '\t' :: d := by
  induction h with
  | nil => simp
  | cons a as ih =>
    have ha : a ≠ '\t' := fun he => hh (he ▸ List.mem_cons_self a as)
    rw [List.cons_append, List.dropWhile_cons, if_pos (by simp [ha])]
    exact ih (fun hm => hh (List.mem_cons_of_mem a hm))

/-- A supplementary line `h ++ '\t' :: d` with tab-free headword is
rewritten by the merger to `h ++ '\t' :: (CHAR_TAG ++ d)`. -/
lemma renderSupp_tagged (h d : List Char) (hh : '\t' ∉ h) :
    renderSupp (h ++ '\t' :: d) = h ++ '\t' :: (CHAR_TAG ++ d) := by
  rw [renderSupp,
    if_pos (List.mem_append.mpr (Or.inr (List.mem_cons_self _ _)))]
  rw [takeWhile_no_tab h d hh, dropWhile_no_tab h d hh]
  simp

/-- C6: a headword present in both sources yields two separate output
lines — the base line unchanged at some earlier index, and the tagged
supplementary line (with `[Character] ` prepended to its definition) at
some later index; no cross-source consolidation happens. -/
theorem c6_merge_two_lines :
    ∀ b s h d1 d2, '\t' ∉ h →
      (h ++ '\t' :: d1) ∈ baseLinesOf b →
      (h ++ '\t' :: d2) ∈ suppFiltered s →
      ∃ i j : Nat, i < j ∧
        (mergedLines b s)[i]? = some (h ++ '\t' :: d1) ∧
        (mergedLines b s)[j]? = some (h ++ '\t' :: (CHAR_TAG ++ d2)) := by
  intro b s h d1 d2 hh hb hs
  obtain ⟨i, hi, hgi⟩ := List.mem_iff_getElem.mp hb
  have hmem : (h ++ '\t' :: (CHAR_TAG ++ d2)) ∈ (suppFiltered s).map renderSupp :=
    renderSupp_tagged h d2 hh ▸ List.mem_map_of_mem renderSupp hs
  obtain ⟨j0, hj0, hgj⟩ := List.mem_iff_getElem.mp hmem
  refine ⟨i, (baseLinesOf b).length + j0, by omega, ?_, ?_⟩
  · rw [mergedLines, List.getElem?_append, if_pos hi,
      List.getElem?_eq_getElem hi, hgi]
  · rw [mergedLines, List.getElem?_append_right (by omega)]
    simp only [Nat.add_sub_cancel_left]
    rw [List.getElem?_eq_getElem hj0, hgj]

/-- Witness for `c6_merge_two_lines`: the `dog` example from the spec. -/
theorem c6_merge_two_lines_witness :
    ('\t' ∉ (("dog").data)) ∧
    ((("dog").data ++ '\t' :: ("a canine").data) ∈
      baseLinesOf (("dog\ta canine").data)) ∧
    ((("dog").data ++ '\t' :: ("loyal companion of the hero").data) ∈
      suppFiltered (("dog\tloyal companion of the hero").data)) ∧
    (∃ i j : Nat, i < j ∧
      (mergedLines (("dog\ta canine").data)
        (("dog\tloyal companion of the hero").data))[i]? =
        some (("dog").data ++ '\t' :: ("a canine").data) ∧
      (mergedLines (("dog\ta canine").data)
        (("dog\tloyal companion of the hero").data))[j]? =
        some (("dog").data ++ '\t' ::
          (CHAR_TAG ++ ("loyal companion of the hero").data))) :=
  ⟨by decide, by decide, by decide,
   c6_merge_two_lines (("dog\ta canine").data)
     (("dog\tloyal companion of the hero").data) (("dog").data)
     (("a canine").data) (("loyal companion of the hero").data)
     (by decide) (by decide) (by decide)⟩

/-- C7: the merger's line policy — the output is exactly the base lines
followed by the processed supplementary lines; every base line (blank
included) is passed through in place; a supplementary line without a tab
is written unmodified; and a supplementary line is kept if and only if it
is non-blank after stripping. -/
theorem c7_merger_line_policy :
    ∀ b s,
      mergedLines b s = baseLinesOf b ++ (suppFiltered s).map renderSupp ∧
      (mergedLines b s).take (baseLinesOf b).length = baseLinesOf b ∧
      (∀ ln : List Char, '\t' ∉ ln → renderSupp ln = ln) ∧
      (∀ ln, ln ∈ suppFiltered s → pyStrip ln ≠ []) ∧
      (∀ ln, ln ∈ pySplitlines (pyStrip s) → pyStrip ln ≠ [] →
        ln ∈ suppFiltered s) := by
  intro b s
  refine ⟨rfl, ?_, ?_, ?_, ?_⟩
  · rw [mergedLines]
    exact List.take_left _ _
  · intro ln ht
    rw [renderSupp, if_neg ht]
  · intro ln hln
    rw [suppFiltered] at hln
    have hp := List.of_mem_filter hln
    simpa [List.isEmpty_iff] using hp
  · intro ln h1 h2
    rw [suppFiltered]
    exact List.mem_filter.mpr ⟨h1, by simpa [List.isEmpty_iff] using h2⟩

/-- Witness for `c7_merger_line_policy`: a tabless supplementary line is
passed through verbatim and a non-blank line survives the filter. -/
theorem c7_merger_line_policy_witness :
    renderSupp (("noTab").data) = ("noTab").data ∧
    (("c\td").data ∈ suppFiltered (("noTab\n\n  \nc\td").data)) :=
  ⟨(c7_merger_line_policy [] []).2.2.1 (("noTab").data) (by decide),
   (c7_merger_line_policy [] (("noTab\n\n  \nc\td").data)).2.2.2.2
     (("c\td").data) (by decide) (by decide)⟩

/-- C8: each listed fatal condition — extractor: missing input directory
or zero matching letter files; merger: unknown identifier, missing base
lexicon, missing supplementary file — produces a trace that reports exit
status 1 and contains no write of the destination file; and the only
write a run ever performs carries the fully built in-memory result, so no
partial output can exist.  (The extractor's output-directory `mkdir` does
precede its zero-files check, but the destination file itself is never
touched on a fatal path.) -/
theorem c8_fatal_before_write :
    (∀ fuel look t, extractorTraceL fuel false look = some t →
      t = [Eff.exitCode 1] ∧ ∀ c, Eff.writeOut c ∉ t) ∧
    (∀ fuel look t, presentLetters look = [] →
      extractorTraceL fuel true look = some t →
      Eff.exitCode 1 ∈ t ∧ ∀ c, Eff.writeOut c ∉ t) ∧
    (∀ fuel look t c, extractorTraceL fuel true look = some t →
      Eff.writeOut c ∈ t →
      ∃ es, entriesOfRun fuel look = some es ∧ c = render es) ∧
    (∀ book gE cE bt st,
      (lookupBook book = none ∨ gE = false ∨ cE = false) →
      mergerTrace book gE cE bt st = [Eff.exitCode 1]) ∧
    (∀ book cfg bt st, lookupBook book = some cfg →
      mergerTrace book true true bt st =
        [Eff.mkdirOut, Eff.writeOut (mergeOutput bt st)]) := by
  refine ⟨?_, ?_, ?_, ?_, ?_⟩
  · intro fuel look t ht
    simp [extractorTraceL] at ht
    subst ht
    exact ⟨rfl, by intro c hc; simp at hc⟩
  · intro fuel look t hp ht
    simp [extractorTraceL, hp] at ht
    subst ht
    exact ⟨by simp, by intro c hc; simp at hc⟩
  · intro fuel look t c ht hw
    by_cases hp : presentLetters look = []
    · simp [extractorTraceL, hp] at ht
      subst ht
      simp at hw
    · simp only [extractorTraceL, Bool.true_eq_false, if_false,
        if_neg hp] at ht
      cases he : entriesOfRun fuel look with
      | none => rw [he] at ht; exact Option.noConfusion ht
      | some es =>
        rw [he] at ht
        have ht2 : t = [Eff.mkdirOut, Eff.writeOut (render es)] :=
          (Option.some.inj ht).symm
        subst ht2
        refine ⟨es, rfl, ?_⟩
        rcases List.mem_cons.mp hw with hw | hw
        · exact Eff.noConfusion hw
        · rcases List.mem_singleton.mp hw with hw2
          exact (Eff.writeOut.inj hw2)
  · intro book gE cE bt st hfat
    rcases hfat with hfat | hfat | hfat
    · rw [mergerTrace, hfat]
    · cases hb : lookupBook book with
      | none => rw [mergerTrace, hb]
      | some cfg => rw [mergerTrace, hb, hfat]; simp
    · cases hb : lookupBook book with
      | none => rw [mergerTrace, hb]
      | some cfg =>
        rw [mergerTrace, hb, hfat]
        cases gE <;> simp
  · intro book cfg bt st hb
    rw [mergerTrace, hb]
    simp

/-- Witness for `c8_fatal_before_write`: the zero-letter-files extractor
run and an unknown-book merger run. -/
theorem c8_fatal_before_write_witness :
    extractorTraceL 1 true (fsLookup ([] : List (List Char × List Char))) =
      some [Eff.mkdirOut, Eff.exitCode 1] ∧
    (Eff.exitCode 1 ∈ [Eff.mkdirOut, Eff.exitCode 1] ∧
      ∀ c, Eff.writeOut c ∉ [Eff.mkdirOut, Eff.exitCode 1]) ∧
    mergerTrace (("nope").data) true true [] [] = [Eff.exitCode 1] :=
  ⟨by decide,
   c8_fatal_before_write.2.1 1 (fsLookup ([] : List (List Char × List Char)))
     [Eff.mkdirOut, Eff.exitCode 1] (by decide) (by decide),
   c8_fatal_before_write.2.2.2.1 (("nope").data) true true [] []
     (Or.inl (by decide))⟩

/-- C9: the extractor's observable behaviour depends on the input
directory only through name lookup, never through listing order — for any
two listings of the same files (a permutation, names unique) the whole
effect trace, in particular the output file's bytes, is identical.  Two
runs on literally the same listing are identical because the model is a
function. -/
theorem c9_extractor_deterministic :
    ∀ fuel dirExists (fs1 fs2 : List (List Char × List Char)),
      fs1.Perm fs2 → (fs1.map Prod.fst).Nodup →
      extractorTrace fuel dirExists fs1 = extractorTrace fuel dirExists fs2 := by
  intro fuel d fs1 fs2 hp hn
  have h : fsLookup fs1 = fsLookup fs2 := funext (fsLookup_perm fs1 fs2 hp hn)
  rw [extractorTrace, extractorTrace, h]

/-- Witness for `c9_extractor_deterministic`: a two-file corpus listed in
the two possible orders yields equal traces. -/
theorem c9_extractor_deterministic_witness :
    List.Perm
      [(fileName 'a', ("<p><ent>A</ent><hw>ax</hw><def>da</def></p>").data),
       (fileName 'b', ("<p><ent>B</ent><hw>bx</hw><def>db</def></p>").data)]
      [(fileName 'b', ("<p><ent>B</ent><hw>bx</hw><def>db</def></p>").data),
       (fileName 'a', ("<p><ent>A</ent><hw>ax</hw><def>da</def></p>").data)] ∧
    (([(fileName 'a', ("<p><ent>A</ent><hw>ax</hw><def>da</def></p>").data),
       (fileName 'b', ("<p><ent>B</ent><hw>bx</hw><def>db</def></p>").data)].map
        (Prod.fst (α := List Char) (β := List Char))).Nodup) ∧
    extractorTrace 10 true
      [(fileName 'a', ("<p><ent>A</ent><hw>ax</hw><def>da</def></p>").data),
       (fileName 'b', ("<p><ent>B</ent><hw>bx</hw><def>db</def></p>").data)] =
    extractorTrace 10 true
      [(fileName 'b', ("<p><ent>B</ent><hw>bx</hw><def>db</def></p>").data),
       (fileName 'a', ("<p><ent>A</ent><hw>ax</hw><def>da</def></p>").data)] :=
  ⟨List.Perm.swap _ _ _, by decide,
    c9_extractor_deterministic 10 true _ _ (List.Perm.swap _ _ _) (by decide)⟩

/-- C10: whenever `extract_entry` produces an entry, its headword is the
matched `<hw>` span's text stripped and passed through `decode_entities`
(HTML unescaping plus the fixed GCIDE entity table), not the raw span
text. -/
theorem c10_headword_decoded :
    ∀ fuel s raw h d, findHw s = some raw →
      extract_entry fuel s = some (some (h, d)) →
      h = decode_entities (pyStrip raw) := by
  intro fuel s raw h d hf he
  simp only [extract_entry, hf] at he
  cases hc : collectDefs s fuel 0 with
  | none => simp only [hc] at he; exact Option.noConfusion he
  | some defs =>
    simp only [hc] at he
    by_cases hd : defs = []
    · simp only [if_pos hd, Option.some.injEq] at he
      exact Option.noConfusion he
    · simp only [if_neg hd, Option.some.injEq, Prod.mk.injEq] at he
      exact he.1.symm

/-- Witness for `c10_headword_decoded`: a headword span containing the
GCIDE entity `&ebreve_;` is written with U+0115 (e with breve). -/
theorem c10_headword_decoded_witness :
    findHw (("<p><ent>x</ent><hw>pr&ebreve_;y</hw><def>d</def></p>").data) =
      some (("pr&ebreve_;y").data) ∧
    extract_entry 3 (("<p><ent>x</ent><hw>pr&ebreve_;y</hw><def>d</def></p>").data) =
      some (some (['p', 'r', Char.ofNat 0x115, 'y'], ("d").data)) ∧
    ['p', 'r', Char.ofNat 0x115, 'y'] =
      decode_entities (pyStrip (("pr&ebreve_;y").data)) :=
  ⟨by decide, by decide,
    c10_headword_decoded 3
      (("<p><ent>x</ent><hw>pr&ebreve_;y</hw><def>d</def></p>").data)
      (("pr&ebreve_;y").data) ['p', 'r', Char.ofNat 0x115, 'y'] (("d").data)
      (by decide) (by decide)⟩

end Gcide
